import Mathlib

/-!
Verification of the `determiner` random-sampling core of the quokka repository
(`src/packages/determiner/_generators.ts`, `_format.ts`, `_source.ts`).

A deterministic byte source is modelled as an infinite stream of raw values;
a `Uint8Array` cell stores its value reduced mod 256.  A stateful
`RandomSource` call `source(len)` is modelled by explicit position passing:
the call starting at position `pos` delivers the bytes at positions
`pos, pos+1, ..., pos+len-1` and leaves the stream at position `pos + len`.
JavaScript numbers that can be `NaN` are modelled as `Option ℤ` (with `none`
for `NaN`); loops with no syntactic bound carry explicit fuel and return
`none` when the fuel runs out.
-/

namespace Quokka

/-- A deterministic byte source: `s i` is the raw value delivered at
position `i`. -/
def ByteStream : Type := ℕ → ℕ

/-- The byte actually stored at position `i` (a `Uint8Array` cell keeps the
value mod 256). -/
def byteAt (s : ByteStream) (i : ℕ) : ℕ := s i % 256

/-- The bytes delivered by `source(len)` when the stream stands at `pos`:
positions `pos, ..., pos + len - 1` in order. -/
def drawList (s : ByteStream) (pos : ℕ) : ℕ → List ℕ
  | 0 => []
  | n + 1 => byteAt s pos :: drawList s (pos + 1) n

/-- Big-endian value of a byte list, as read by a `DataView` get*
accessor (default big-endian). -/
def beVal (bs : List ℕ) : ℕ := bs.foldl (fun a b => a * 256 + b) 0

/-- `maxUint64 = 18_446_744_073_709_551_615n` from `_generators.ts`. -/
def maxUint64 : ℕ := 18446744073709551615

/-- `maxUInt32 = 4_294_967_296` from `_generators.ts`. -/
def maxUInt32 : ℕ := 4294967296

/-- `maxUint16 = 65_536` from `_generators.ts`. -/
def maxUint16 : ℕ := 65536

/-- `maxUint8 = 256` from `_generators.ts`. -/
def maxUint8 : ℕ := 256

/-- `uint64(source)`: draw 8 bytes, read them big-endian
(`DataView.getBigUint64(0)`); result paired with the new position. -/
def uint64 (s : ByteStream) (pos : ℕ) : ℕ × ℕ := (beVal (drawList s pos 8), pos + 8)

/-- `uint32(source)`: draw 4 bytes, read them big-endian
(`DataView.getUint32(0)`). -/
def uint32 (s : ByteStream) (pos : ℕ) : ℕ × ℕ := (beVal (drawList s pos 4), pos + 4)

/-- `uint16(source)`: draw 2 bytes, read them big-endian. -/
def uint16 (s : ByteStream) (pos : ℕ) : ℕ × ℕ := (beVal (drawList s pos 2), pos + 2)

/-- `uint8(source)`: draw 1 byte. -/
def uint8 (s : ByteStream) (pos : ℕ) : ℕ × ℕ := (beVal (drawList s pos 1), pos + 1)

/-- `maxIntegerIter = 100` from `_generators.ts`. -/
def maxIntegerIter : ℕ := 100

/-- The loop guard `sample < Math.floor(maxUInt32 / range) * range`.
`Math.floor` on a real quotient is floor division (`Int.fdiv`).  For
`range = 0` the JavaScript limit is `Infinity * 0 = NaN` and the comparison
is always false. -/
def rsAccepts (range : ℤ) (v : ℤ) : Bool :=
  if range = 0 then false
  else decide (v < Int.fdiv (maxUInt32 : ℤ) range * range)

/-- The do/while loop of `rejectionSampling`, with `r` retries still
allowed (the JS counter `i` satisfies `r = maxIntegerIter - i`; when it hits
0 the loop breaks after one more draw).  Returns
(last sample, final position, number of draws). -/
def rsAux (s : ByteStream) (range : ℤ) (pos : ℕ) : ℕ → ℤ × ℕ × ℕ
  | 0 => (((uint32 s pos).1 : ℤ), (uint32 s pos).2, 1)
  | r + 1 =>
    let v : ℤ := ((uint32 s pos).1 : ℤ)
    if rsAccepts range v then (v, (uint32 s pos).2, 1)
    else
      let t := rsAux s range ((uint32 s pos).2) r
      (t.1, t.2.1, t.2.2 + 1)

/-- `rejectionSampling(source, range)`: run the loop, then return
`sample % range` (JS `%` is the truncated remainder, `Int.tmod`; for
`range = 0` it is `NaN`, modelled as `none`). -/
def rejectionSampling (s : ByteStream) (range : ℤ) (pos : ℕ) : Option ℤ × ℕ :=
  let t := rsAux s range pos maxIntegerIter
  (if range = 0 then none else some (Int.tmod t.1 range), t.2.1)

/-- `integerLessThan(source, range) = rejectionSampling(source, Math.ceil(range))`.
The argument is a JS number, modelled as a rational. -/
def integerLessThan (s : ByteStream) (range : ℚ) (pos : ℕ) : Option ℤ × ℕ :=
  rejectionSampling s ⌈range⌉ pos

/-- `integer(source, min, max)`: if `min ≤ max`, return
`l + integerLessThan(source, h - l + 1)` with `l = Math.ceil(min)`,
`h = Math.floor(max)` (addition with `NaN` stays `NaN`); otherwise `NaN`. -/
def integer (s : ByteStream) (min max : ℚ) (pos : ℕ) : Option ℤ × ℕ :=
  if min ≤ max then
    let l : ℤ := ⌈min⌉
    let h : ℤ := ⌊max⌋
    let t := integerLessThan s ((h : ℚ) - (l : ℚ) + 1) pos
    (t.1.map (fun v => l + v), t.2)
  else (none, pos)

/-! ## Basic facts about the byte reader -/

theorem byteAt_lt (s : ByteStream) (i : ℕ) : byteAt s i < 256 :=
  Nat.mod_lt _ (by norm_num)

theorem drawList_length (s : ByteStream) : ∀ n pos, (drawList s pos n).length = n := by
  intro n
  induction n with
  | zero => intro pos; rfl
  | succ n ih => intro pos; simp [drawList, ih]

theorem drawList_append (s : ByteStream) :
    ∀ a pos b, drawList s pos (a + b) = drawList s pos a ++ drawList s (pos + a) b := by
  intro a
  induction a with
  | zero => intro pos b; simp [drawList]
  | succ a ih =>
    intro pos b
    have : a + 1 + b = (a + b) + 1 := by omega
    rw [this]
    simp only [drawList, List.cons_append, ih (pos + 1) b]
    have : pos + 1 + a = pos + (a + 1) := by omega
    rw [this]

theorem beVal_foldl_lt :
    ∀ (bs : List ℕ) (acc : ℕ), (∀ b ∈ bs, b < 256) →
      bs.foldl (fun a b => a * 256 + b) acc < (acc + 1) * 256 ^ bs.length := by
  intro bs
  induction bs with
  | nil => intro acc _; simp
  | cons b bs ih =>
    intro acc hb
    have hblt : b < 256 := hb b (List.mem_cons_self b bs)
    have hrec := ih (acc * 256 + b) (fun x hx => hb x (List.mem_cons_of_mem b hx))
    calc (b :: bs).foldl (fun a c => a * 256 + c) acc
        = bs.foldl (fun a c => a * 256 + c) (acc * 256 + b) := rfl
      _ < (acc * 256 + b + 1) * 256 ^ bs.length := hrec
      _ ≤ ((acc + 1) * 256) * 256 ^ bs.length := by
          have : acc * 256 + b + 1 ≤ (acc + 1) * 256 := by nlinarith
          exact Nat.mul_le_mul_right _ this
      _ = (acc + 1) * 256 ^ (b :: bs).length := by
          simp [pow_succ, List.length_cons]; ring

theorem beVal_lt (bs : List ℕ) (h : ∀ b ∈ bs, b < 256) : beVal bs < 256 ^ bs.length := by
  have h0 := beVal_foldl_lt bs 0 h
  rw [beVal]
  omega

theorem drawList_mem_lt (s : ByteStream) :
    ∀ n pos, ∀ b ∈ drawList s pos n, b < 256 := by
  intro n
  induction n with
  | zero => intro pos b hb; simp [drawList] at hb
  | succ n ih =>
    intro pos b hb
    simp only [drawList, List.mem_cons] at hb
    rcases hb with h | h
    · subst h; exact byteAt_lt s pos
    · exact ih (pos + 1) b h

theorem uint32_lt (s : ByteStream) (pos : ℕ) : (uint32 s pos).1 < 4294967296 := by
  have := beVal_lt (drawList s pos 4) (drawList_mem_lt s 4 pos)
  rwa [drawList_length] at this

/-! ## Concrete byte sources used in scenarios -/

/-- The cyclic source delivering bytes 0,1,2,...,255,0,1,... -/
def cycS : ByteStream := fun i => i % 256

/-- The source whose raw value at position `i` is `i` (delivers the same
bytes as `cycS`, since a `Uint8Array` cell keeps values mod 256). -/
def idS : ByteStream := fun i => i

/-- The all-zeros source. -/
def zS : ByteStream := fun _ => 0

/-- The all-0xFF source. -/
def ffS : ByteStream := fun _ => 255

/-! ## Rejection sampling: loop lemmas -/

theorem uint32_snd (s : ByteStream) (pos : ℕ) : (uint32 s pos).2 = pos + 4 := rfl

theorem rsAux_zero (s : ByteStream) (range : ℤ) (pos : ℕ) :
    rsAux s range pos 0 = (((uint32 s pos).1 : ℤ), (uint32 s pos).2, 1) := rfl

theorem rsAux_succ (s : ByteStream) (range : ℤ) (pos : ℕ) (r : ℕ) :
    rsAux s range pos (r + 1) =
      if rsAccepts range ((uint32 s pos).1 : ℤ) = true
      then (((uint32 s pos).1 : ℤ), (uint32 s pos).2, 1)
      else ((rsAux s range ((uint32 s pos).2) r).1,
            (rsAux s range ((uint32 s pos).2) r).2.1,
            (rsAux s range ((uint32 s pos).2) r).2.2 + 1) := by
  simp only [rsAux]

theorem rsAux_draws_le (s : ByteStream) (range : ℤ) :
    ∀ r pos, (rsAux s range pos r).2.2 ≤ r + 1 := by
  intro r
  induction r with
  | zero => intro pos; simp [rsAux_zero]
  | succ r ih =>
    intro pos
    rw [rsAux_succ]
    by_cases h : rsAccepts range ((uint32 s pos).1 : ℤ) = true
    · simp [h]
    · simp only [h, ite_false, Bool.false_eq_true]
      have := ih ((uint32 s pos).2)
      omega

theorem rsAux_endPos (s : ByteStream) (range : ℤ) :
    ∀ r pos, (rsAux s range pos r).2.1 = pos + 4 * (rsAux s range pos r).2.2 := by
  intro r
  induction r with
  | zero => intro pos; simp [rsAux_zero, uint32_snd]
  | succ r ih =>
    intro pos
    rw [rsAux_succ]
    by_cases h : rsAccepts range ((uint32 s pos).1 : ℤ) = true
    · simp [h, uint32_snd]
    · simp only [h, ite_false, Bool.false_eq_true]
      have := ih ((uint32 s pos).2)
      rw [uint32_snd] at this
      simp only [uint32_snd] at *
      omega

theorem rsAux_sample_bounds (s : ByteStream) (range : ℤ) :
    ∀ r pos, 0 ≤ (rsAux s range pos r).1 ∧ (rsAux s range pos r).1 < 4294967296 := by
  intro r
  induction r with
  | zero =>
    intro pos
    rw [rsAux_zero]
    refine ⟨Int.ofNat_nonneg _, ?_⟩
    show ((uint32 s pos).1 : ℤ) < 4294967296
    exact_mod_cast uint32_lt s pos
  | succ r ih =>
    intro pos
    rw [rsAux_succ]
    by_cases h : rsAccepts range ((uint32 s pos).1 : ℤ) = true
    · simp only [h, ite_true]
      refine ⟨Int.ofNat_nonneg _, ?_⟩
      show ((uint32 s pos).1 : ℤ) < 4294967296
      exact_mod_cast uint32_lt s pos
    · simp only [h, ite_false, Bool.false_eq_true]
      exact ih ((uint32 s pos).2)

theorem rsAux_succ_accept (s : ByteStream) (range : ℤ) (pos : ℕ) (r : ℕ)
    (h : rsAccepts range ((uint32 s pos).1 : ℤ) = true) :
    rsAux s range pos (r + 1) = (((uint32 s pos).1 : ℤ), pos + 4, 1) := by
  rw [rsAux_succ]
  simp [h, uint32_snd]

theorem rsAux_accept_first (s : ByteStream) (range : ℤ) (pos : ℕ)
    (h : rsAccepts range ((uint32 s pos).1 : ℤ) = true) :
    rsAux s range pos maxIntegerIter = (((uint32 s pos).1 : ℤ), pos + 4, 1) := by
  have h100 : maxIntegerIter = 99 + 1 := rfl
  rw [h100, rsAux_succ_accept s range pos 99 h]

theorem rejectionSampling_mem (s : ByteStream) (range : ℤ) (pos : ℕ) (hr : 1 ≤ range) :
    ∀ v pos', rejectionSampling s range pos = (some v, pos') → 0 ≤ v ∧ v < range := by
  intro v pos' h
  have hne : range ≠ 0 := by omega
  simp only [rejectionSampling, hne, ite_false, Prod.mk.injEq, Option.some.injEq] at h
  have hs := rsAux_sample_bounds s range maxIntegerIter pos
  rw [← h.1, Int.tmod_eq_emod hs.1 (by omega)]
  exact ⟨Int.emod_nonneg _ hne, Int.emod_lt_of_pos _ (by omega)⟩

theorem rsAccepts_one (v : ℤ) (h : v < 4294967296) : rsAccepts 1 v = true := by
  simp only [rsAccepts, one_ne_zero, ite_false, Int.fdiv_one, mul_one, decide_eq_true_eq]
  have : (maxUInt32 : ℤ) = 4294967296 := by norm_num [maxUInt32]
  omega

/-- For a negative divisor, floor division overshoots: `a ≤ ⌊a / b⌋ * b`. -/
theorem fdiv_mul_ge_of_neg (a b : ℤ) (ha : 0 ≤ a) (hb : b < 0) :
    a ≤ Int.fdiv a b * b := by
  obtain ⟨m, rfl⟩ := Int.eq_ofNat_of_zero_le ha
  obtain ⟨n, rfl⟩ := Int.eq_negSucc_of_lt_zero hb
  cases m with
  | zero => simp [Int.fdiv]
  | succ m =>
    show (Int.ofNat (m + 1)) ≤ Int.negSucc (m / (n + 1)) * Int.negSucc n
    rw [Int.negSucc_mul_negSucc]
    have h1 := Nat.div_add_mod m (n + 1)
    have h2 := Nat.mod_lt m (show 0 < n + 1 by omega)
    have h3 : m + 1 ≤ (m / (n + 1) + 1) * (n + 1) := by nlinarith
    simp only [Nat.succ_eq_add_one, Int.ofNat_eq_coe]
    exact_mod_cast h3

theorem rsAccepts_neg (range v : ℤ) (hr : range < 0) (hv : 0 ≤ v)
    (h : v < 4294967296) : rsAccepts range v = true := by
  have hne : range ≠ 0 := by omega
  simp only [rsAccepts, hne, ite_false, decide_eq_true_eq]
  have hM : (4294967296 : ℤ) ≤ Int.fdiv (maxUInt32 : ℤ) range * range := by
    have := fdiv_mul_ge_of_neg (maxUInt32 : ℤ) range (by norm_num [maxUInt32]) hr
    have hMe : (maxUInt32 : ℤ) = 4294967296 := by norm_num [maxUInt32]
    omega
  omega

theorem rejectionSampling_one (s : ByteStream) (pos : ℕ) :
    rejectionSampling s 1 pos = (some 0, pos + 4) := by
  have hacc : rsAccepts 1 ((uint32 s pos).1 : ℤ) = true := by
    refine rsAccepts_one _ ?_
    exact_mod_cast uint32_lt s pos
  rw [rejectionSampling, rsAux_accept_first s 1 pos hacc]
  simp [Int.tmod_one]

theorem rsAccepts_zero (v : ℤ) : rsAccepts 0 v = false := rfl

theorem rsAux_zero_range_endPos (s : ByteStream) :
    ∀ r pos, (rsAux s 0 pos r).2.1 = pos + 4 * (r + 1) := by
  intro r
  induction r with
  | zero => intro pos; simp [rsAux_zero, uint32_snd]
  | succ r ih =>
    intro pos
    rw [rsAux_succ]
    simp only [rsAccepts_zero, Bool.false_eq_true, ite_false, uint32_snd]
    rw [ih (pos + 4)]
    omega

theorem integerLessThan_zero (s : ByteStream) (pos : ℕ) :
    integerLessThan s 0 pos = (none, pos + 404) := by
  have h0 : (⌈(0 : ℚ)⌉ : ℤ) = 0 := Int.ceil_zero
  rw [integerLessThan, h0, rejectionSampling]
  simp only [ite_true, rsAux_zero_range_endPos s maxIntegerIter pos]
  rfl

/-! ## Claim C5 -/

/-- C5 (amended): for every byte source and integer `range ≥ 1`,
`rejectionSampling` terminates after at most 101 draws of a 32-bit integer
(the initial draw plus at most 100 retries, `maxIntegerIter = 100`), each
draw consuming exactly 4 bytes; a draw `v` is accepted exactly when
`v < Math.floor(2^32 / range) * range`; if the first draw is accepted the
function returns after one draw; the returned value is always
`sample mod range` of the last draw (the bias fallback when the cap runs
out); and with `range = 1` the first draw is always accepted and the
result is 0. -/
theorem C5_amended_rejection_cap (s : ByteStream) (pos : ℕ) (range : ℤ)
    (hr : 1 ≤ range) :
    (rsAux s range pos maxIntegerIter).2.2 ≤ 101 ∧
    (rsAux s range pos maxIntegerIter).2.1 =
      pos + 4 * (rsAux s range pos maxIntegerIter).2.2 ∧
    (∀ v : ℤ, rsAccepts range v = true ↔
      v < Int.fdiv (maxUInt32 : ℤ) range * range) ∧
    (rsAccepts range ((uint32 s pos).1 : ℤ) = true →
      rejectionSampling s range pos =
        (some (Int.tmod ((uint32 s pos).1 : ℤ) range), pos + 4)) ∧
    rejectionSampling s range pos =
      (some (Int.tmod (rsAux s range pos maxIntegerIter).1 range),
        (rsAux s range pos maxIntegerIter).2.1) ∧
    (range = 1 → rejectionSampling s range pos = (some 0, pos + 4)) := by
  have hne : range ≠ 0 := by omega
  refine ⟨?_, rsAux_endPos s range maxIntegerIter pos, ?_, ?_, ?_, ?_⟩
  · have := rsAux_draws_le s range maxIntegerIter pos
    simpa [maxIntegerIter] using this
  · intro v
    simp [rsAccepts, hne]
  · intro hacc
    rw [rejectionSampling, rsAux_accept_first s range pos hacc]
    simp [hne]
  · rw [rejectionSampling]
    simp [hne]
  · intro h1
    subst h1
    exact rejectionSampling_one s pos

/-- Witness for C5: concrete instantiation at `range = 1`, the cyclic byte
source and position 0. -/
theorem C5_witness :
    (1 : ℤ) ≤ 1 ∧
    ((rsAux cycS 1 0 maxIntegerIter).2.2 ≤ 101 ∧
    (rsAux cycS 1 0 maxIntegerIter).2.1 =
      0 + 4 * (rsAux cycS 1 0 maxIntegerIter).2.2 ∧
    (∀ v : ℤ, rsAccepts 1 v = true ↔
      v < Int.fdiv (maxUInt32 : ℤ) 1 * 1) ∧
    (rsAccepts 1 ((uint32 cycS 0).1 : ℤ) = true →
      rejectionSampling cycS 1 0 =
        (some (Int.tmod ((uint32 cycS 0).1 : ℤ) 1), 0 + 4)) ∧
    rejectionSampling cycS 1 0 =
      (some (Int.tmod (rsAux cycS 1 0 maxIntegerIter).1 1),
        (rsAux cycS 1 0 maxIntegerIter).2.1) ∧
    ((1 : ℤ) = 1 → rejectionSampling cycS 1 0 = (some 0, 0 + 4))) :=
  ⟨le_refl 1, C5_amended_rejection_cap cycS 0 1 (le_refl 1)⟩

/-- Counterexample for C5 as stated: with the all-0xFF source and
`range = 3` every draw equals `4294967295`, which is rejected
(`limit = 4294967295`), so the loop performs 101 draws, exceeding the
claimed cap of 100 draw attempts. -/
theorem C5_counterexample :
    (rsAux ffS 3 0 maxIntegerIter).2.2 = 101 ∧
    ¬ (rsAux ffS 3 0 maxIntegerIter).2.2 ≤ 100 := by
  constructor <;> decide

/-! ## Claim C6 -/

theorem integerLessThan_intCast_mem (s : ByteStream) (pos : ℕ) (range : ℤ)
    (hr : 1 ≤ range) :
    ∀ v pos', integerLessThan s (range : ℚ) pos = (some v, pos') →
      0 ≤ v ∧ v < range := by
  intro v pos' h
  rw [integerLessThan, Int.ceil_intCast] at h
  exact rejectionSampling_mem s range pos hr v pos' h

theorem integer_intCast_eq (s : ByteStream) (pos : ℕ) (mn mx : ℤ) (hmm : mn ≤ mx) :
    integer s (mn : ℚ) (mx : ℚ) pos =
      (((integerLessThan s ((mx - mn + 1 : ℤ) : ℚ) pos).1).map (fun v => mn + v),
        (integerLessThan s ((mx - mn + 1 : ℤ) : ℚ) pos).2) := by
  have hc : ((mn : ℚ)) ≤ ((mx : ℚ)) := by exact_mod_cast hmm
  rw [integer, if_pos hc]
  simp only [Int.floor_intCast, Int.ceil_intCast]
  have harg : ((mx : ℚ) - (mn : ℚ) + 1) = ((mx - mn + 1 : ℤ) : ℚ) := by
    push_cast
    ring
  rw [harg]

/-- C6 (confirmed): for every byte source and integer `range ≥ 1`,
`integerLessThan` returns a value in `[0, range)`; for all integers
`min ≤ max`, `integer` equals `min + integerLessThan(source, max-min+1)`
and hence returns a value in `[min, max]`, on every path including the
bias fallback; and `integer(source, 5, 5)` always returns 5. -/
theorem C6_sampler_bounds (s : ByteStream) (pos : ℕ) (range mn mx : ℤ)
    (hr : 1 ≤ range) (hmm : mn ≤ mx) :
    (∀ v pos', integerLessThan s (range : ℚ) pos = (some v, pos') →
      0 ≤ v ∧ v < range) ∧
    integer s (mn : ℚ) (mx : ℚ) pos =
      (((integerLessThan s ((mx - mn + 1 : ℤ) : ℚ) pos).1).map (fun v => mn + v),
        (integerLessThan s ((mx - mn + 1 : ℤ) : ℚ) pos).2) ∧
    (∀ v pos', integer s (mn : ℚ) (mx : ℚ) pos = (some v, pos') →
      mn ≤ v ∧ v ≤ mx) ∧
    integer s (5 : ℚ) (5 : ℚ) pos = (some 5, pos + 4) := by
  refine ⟨integerLessThan_intCast_mem s pos range hr,
    integer_intCast_eq s pos mn mx hmm, ?_, ?_⟩
  · intro v pos' h
    rw [integer_intCast_eq s pos mn mx hmm] at h
    have hr1 : (1 : ℤ) ≤ mx - mn + 1 := by omega
    rcases hI : integerLessThan s ((mx - mn + 1 : ℤ) : ℚ) pos with ⟨o, pw⟩
    cases o with
    | none => rw [hI] at h; simp at h
    | some w =>
      rw [hI] at h
      simp only [Option.map_some', Prod.mk.injEq, Option.some.injEq] at h
      have hb := integerLessThan_intCast_mem s pos (mx - mn + 1) hr1 w pw hI
      omega
  · have h55 := integer_intCast_eq s pos 5 5 (le_refl 5)
    have h1 : ((5 : ℤ) - 5 + 1) = (1 : ℤ) := by norm_num
    rw [h1] at h55
    have hone : integerLessThan s ((1 : ℤ) : ℚ) pos = (some 0, pos + 4) := by
      rw [integerLessThan, Int.ceil_intCast]
      exact rejectionSampling_one s pos
    have hcast5 : ((5 : ℤ) : ℚ) = (5 : ℚ) := by norm_num
    rw [hcast5] at h55
    rw [h55, hone]
    norm_num

/-- Witness for C6: concrete instantiation at `range = 1`, `min = max = 5`,
the cyclic byte source and position 0. -/
theorem C6_witness :
    (1 : ℤ) ≤ 1 ∧ (5 : ℤ) ≤ 5 ∧
    integer cycS (5 : ℚ) (5 : ℚ) 0 = (some 5, 0 + 4) :=
  ⟨le_refl 1, le_refl 5, (C6_sampler_bounds cycS 0 1 5 5 (le_refl 1) (le_refl 5)).2.2.2⟩

/-! ## Claim C4 -/

/-- C4 (amended): if `min > max`, `integer` returns the not-a-number
sentinel (`none` here) without consuming bytes and without clamping;
`integerLessThan` with `range = 0` also ends in `NaN` (after burning
404 bytes on the capped loop, whose guard compares against a `NaN`
limit); but for a strictly negative `range` no distinct signal is raised:
the first draw is accepted and an ordinary number in `[0, -⌈range⌉)` is
returned silently. -/
theorem C4_amended_invalid_range (s : ByteStream) (pos : ℕ) (mn mx range : ℚ)
    (h1 : mx < mn) (h2 : ⌈range⌉ < 0) :
    integer s mn mx pos = (none, pos) ∧
    integerLessThan s 0 pos = (none, pos + 404) ∧
    ∃ v, integerLessThan s range pos = (some v, pos + 4) ∧
      0 ≤ v ∧ v < -⌈range⌉ := by
  refine ⟨?_, integerLessThan_zero s pos, ?_⟩
  · rw [integer, if_neg (by exact not_le.mpr h1)]
  · have hne : (⌈range⌉ : ℤ) ≠ 0 := by omega
    have hacc : rsAccepts ⌈range⌉ ((uint32 s pos).1 : ℤ) = true := by
      refine rsAccepts_neg ⌈range⌉ _ h2 (Int.ofNat_nonneg _) ?_
      exact_mod_cast uint32_lt s pos
    refine ⟨Int.tmod ((uint32 s pos).1 : ℤ) ⌈range⌉, ?_, ?_, ?_⟩
    · rw [integerLessThan, rejectionSampling, rsAux_accept_first s ⌈range⌉ pos hacc]
      simp [hne]
    · exact Int.tmod_nonneg _ (Int.ofNat_nonneg _)
    · have hneg : Int.tmod ((uint32 s pos).1 : ℤ) ⌈range⌉ =
          Int.tmod ((uint32 s pos).1 : ℤ) (-⌈range⌉) := (Int.tmod_neg _ _).symm
      rw [hneg, Int.tmod_eq_emod (Int.ofNat_nonneg _) (by omega)]
      exact Int.emod_lt_of_pos _ (by omega)

/-- Witness for C4 (amended): `min = 6 > 5 = max` and `range = -5` with the
all-zeros source. -/
theorem C4_witness :
    ((5 : ℚ) < 6 ∧ ⌈(-5 : ℚ)⌉ < 0) ∧
    (integer zS 6 5 0 = (none, 0) ∧
      integerLessThan zS 0 0 = (none, 0 + 404) ∧
      ∃ v, integerLessThan zS (-5) 0 = (some v, 0 + 4) ∧
        0 ≤ v ∧ v < -⌈(-5 : ℚ)⌉) :=
  ⟨⟨by norm_num, by
      rw [show ((-5 : ℚ)) = (((-5 : ℤ)) : ℚ) by norm_num, Int.ceil_intCast]
      norm_num⟩,
    C4_amended_invalid_range zS 0 6 5 (-5) (by norm_num) (by
      rw [show ((-5 : ℚ)) = (((-5 : ℤ)) : ℚ) by norm_num, Int.ceil_intCast]
      norm_num)⟩

/-- Counterexample for C4 as stated: `integerLessThan(source, -5)` on the
all-zeros source returns the plain number 0 (an ordinary in-range-looking
value) rather than any distinguishable invalid-range signal. -/
theorem C4_counterexample :
    integerLessThan zS (-5) 0 = (some 0, 4) ∧ (some (0 : ℤ)) ≠ none := by
  constructor
  · rw [integerLessThan, show ⌈(-5 : ℚ)⌉ = ((-5 : ℤ)) by
      rw [show ((-5 : ℚ)) = (((-5 : ℤ)) : ℚ) by norm_num, Int.ceil_intCast]]
    decide
  · simp

/-! ## Claim C10 -/

/-- C10 (confirmed): `integer` narrows fractional bounds inward: with
`l = ceil(min)`, `h = floor(max)`, whenever `min ≤ max` and `l ≤ h` it
returns `l + integerLessThan(source, h - l + 1)`, an integer in `[l, h]`;
and `integerLessThan` applies `ceil` to its range argument before
sampling. -/
theorem C10_fractional_bounds (s : ByteStream) (pos : ℕ) (mn mx range : ℚ)
    (h1 : mn ≤ mx) (h2 : ⌈mn⌉ ≤ ⌊mx⌋) :
    integerLessThan s range pos = rejectionSampling s ⌈range⌉ pos ∧
    ∃ v pos', integerLessThan s ((⌊mx⌋ - ⌈mn⌉ + 1 : ℤ) : ℚ) pos = (some v, pos') ∧
      integer s mn mx pos = (some (⌈mn⌉ + v), pos') ∧
      ⌈mn⌉ ≤ ⌈mn⌉ + v ∧ ⌈mn⌉ + v ≤ ⌊mx⌋ := by
  refine ⟨rfl, ?_⟩
  have hr1 : (1 : ℤ) ≤ ⌊mx⌋ - ⌈mn⌉ + 1 := by omega
  have hne : (⌊mx⌋ - ⌈mn⌉ + 1 : ℤ) ≠ 0 := by omega
  have heq : integer s mn mx pos =
      (((integerLessThan s ((⌊mx⌋ - ⌈mn⌉ + 1 : ℤ) : ℚ) pos).1).map (fun v => ⌈mn⌉ + v),
        (integerLessThan s ((⌊mx⌋ - ⌈mn⌉ + 1 : ℤ) : ℚ) pos).2) := by
    rw [integer, if_pos h1]
    show (Option.map (fun v => ⌈mn⌉ + v)
        (integerLessThan s ((⌊mx⌋ : ℚ) - (⌈mn⌉ : ℚ) + 1) pos).1,
      (integerLessThan s ((⌊mx⌋ : ℚ) - (⌈mn⌉ : ℚ) + 1) pos).2) = _
    have harg : ((⌊mx⌋ : ℚ) - (⌈mn⌉ : ℚ) + 1) = ((⌊mx⌋ - ⌈mn⌉ + 1 : ℤ) : ℚ) := by
      push_cast
      ring
    rw [harg]
  rcases hI : integerLessThan s ((⌊mx⌋ - ⌈mn⌉ + 1 : ℤ) : ℚ) pos with ⟨o, pw⟩
  cases o with
  | none =>
    exfalso
    rw [integerLessThan, Int.ceil_intCast, rejectionSampling] at hI
    simp [hne] at hI
  | some w =>
    have hb := integerLessThan_intCast_mem s pos (⌊mx⌋ - ⌈mn⌉ + 1) hr1 w pw hI
    refine ⟨w, pw, rfl, ?_, by omega, by omega⟩
    rw [heq, hI]
    simp

/-- Witness for C10: `min = 16/5`, `max = 49/10` (so `l = h = 4`) with the
all-zeros source at position 0. -/
theorem C10_witness :
    ((16/5 : ℚ) ≤ 49/10 ∧ ⌈(16/5 : ℚ)⌉ ≤ ⌊(49/10 : ℚ)⌋) ∧
    (integerLessThan zS (3 : ℚ) 0 = rejectionSampling zS ⌈(3 : ℚ)⌉ 0 ∧
      ∃ v pos', integerLessThan zS ((⌊(49/10 : ℚ)⌋ - ⌈(16/5 : ℚ)⌉ + 1 : ℤ) : ℚ) 0 =
          (some v, pos') ∧
        integer zS (16/5) (49/10) 0 = (some (⌈(16/5 : ℚ)⌉ + v), pos') ∧
        ⌈(16/5 : ℚ)⌉ ≤ ⌈(16/5 : ℚ)⌉ + v ∧ ⌈(16/5 : ℚ)⌉ + v ≤ ⌊(49/10 : ℚ)⌋) :=
  ⟨⟨by norm_num, by
      rw [show (⌈(16/5 : ℚ)⌉ : ℤ) = 4 from by rw [Int.ceil_eq_iff]; norm_num]
      norm_num⟩,
    C10_fractional_bounds zS 0 (16/5) (49/10) 3 (by norm_num) (by
      rw [show (⌈(16/5 : ℚ)⌉ : ℤ) = 4 from by rw [Int.ceil_eq_iff]; norm_num]
      norm_num)⟩

/-! ## Claim C7 -/

/-- C7 (confirmed): each fixed-width extractor draws exactly its width in
fresh bytes and returns the big-endian value of those bytes; the 8-byte
value is below `2^64` (held exactly, as a `bigint` in the source); and on
the cyclic source `0,1,2,...` the first `uint8` call returns 0 and the
second returns 1. -/
theorem C7_bigEndian_extractors (s : ByteStream) (pos : ℕ) :
    uint8 s pos = (byteAt s pos, pos + 1) ∧
    uint16 s pos = (byteAt s pos * 2 ^ 8 + byteAt s (pos + 1), pos + 2) ∧
    uint32 s pos = (byteAt s pos * 2 ^ 24 + byteAt s (pos + 1) * 2 ^ 16 +
      byteAt s (pos + 2) * 2 ^ 8 + byteAt s (pos + 3), pos + 4) ∧
    uint64 s pos = (byteAt s pos * 2 ^ 56 + byteAt s (pos + 1) * 2 ^ 48 +
      byteAt s (pos + 2) * 2 ^ 40 + byteAt s (pos + 3) * 2 ^ 32 +
      byteAt s (pos + 4) * 2 ^ 24 + byteAt s (pos + 5) * 2 ^ 16 +
      byteAt s (pos + 6) * 2 ^ 8 + byteAt s (pos + 7), pos + 8) ∧
    (uint64 s pos).1 ≤ maxUint64 ∧
    uint8 cycS 0 = (0, 1) ∧ uint8 cycS (uint8 cycS 0).2 = (1, 2) := by
  refine ⟨?_, ?_, ?_, ?_, ?_, by decide, by decide⟩
  · simp [uint8, beVal, drawList]
  · simp only [uint16, beVal, drawList, List.foldl, Prod.mk.injEq]
    ring_nf
    simp
  · simp only [uint32, beVal, drawList, List.foldl, Prod.mk.injEq]
    ring_nf
    simp
  · simp only [uint64, beVal, drawList, List.foldl, Prod.mk.injEq]
    ring_nf
    simp
  · have := beVal_lt (drawList s pos 8) (drawList_mem_lt s 8 pos)
    rw [drawList_length] at this
    show beVal (drawList s pos 8) ≤ maxUint64
    rw [maxUint64]
    norm_num at this
    omega

/-! ## The alphabet formatter (`_format.ts`, adapted from nanoid 2.1.11) -/

/-- Fuel-driven binary logarithm, identical to `Nat.log2` (which is
defined by well-founded recursion and therefore does not reduce inside
the kernel). -/
def log2fuel : ℕ → ℕ → ℕ
  | 0, _ => 0
  | fuel + 1, n => if n ≥ 2 then log2fuel fuel (n / 2) + 1 else 0

/-- Floor base-2 logarithm (`log2nat n = Nat.log2 n`, proved below). -/
def log2nat (n : ℕ) : ℕ := log2fuel n n

theorem log2fuel_eq : ∀ fuel n, n ≤ fuel → log2fuel fuel n = Nat.log2 n := by
  intro fuel
  induction fuel with
  | zero =>
    intro n h
    have h0 : n = 0 := by omega
    subst h0
    rw [log2fuel, Nat.log2]
    simp
  | succ fuel ih =>
    intro n h
    rw [log2fuel, Nat.log2]
    by_cases h2 : n ≥ 2
    · rw [if_pos h2, if_pos h2, ih (n / 2) (by omega)]
    · rw [if_neg h2, if_neg h2]

theorem log2nat_eq (n : ℕ) : log2nat n = Nat.log2 n :=
  log2fuel_eq n n le_rfl

/-- The bitmask `(2 << 31 - Math.clz32((alphabet.length - 1) | 1)) - 1`.
For `1 ≤ len < 2^31` the JS expression `31 - Math.clz32 x` equals
`Nat.log2 x`, so the mask is `2 ^ (log2 ((len - 1) ||| 1) + 1) - 1`
(the smallest all-ones mask covering `len - 1`). -/
def formatMask (len : ℕ) : ℕ := 2 ^ (log2nat ((len - 1) ||| 1) + 1) - 1

/-- The batch size `Math.ceil(1.6 * mask * size / alphabet.length)`.
The constant 1.6 is modelled exactly as `8/5`, making the batch size the
ceiling of the rational `8*mask*size / (5*len)`, written with natural
ceiling division. -/
def formatStep (mask size len : ℕ) : ℕ := (8 * mask * size + 5 * len - 1) / (5 * len)

/-- The inner `while (i--)` loop of `format` over one batch of bytes (the
batch is passed already reversed: the JS loop walks it from its last byte
to its first).  Appends `alphabet[b & mask]` when the masked index is in
range (the `|| ''` branch appends nothing otherwise) and returns the
finished string (`Sum.inl`) as soon as its length reaches `size`, checked
after every byte; when the batch is exhausted it hands the accumulated
string back (`Sum.inr`) for the next batch. -/
def formatScan (alpha : List Char) (mask size : ℕ) :
    List ℕ → List Char → List Char ⊕ List Char
  | [], idAcc => Sum.inr idAcc
  | b :: rest, idAcc =>
    let idAcc' := match alpha.get? (b &&& mask) with
      | some c => idAcc ++ [c]
      | none => idAcc
    if idAcc'.length = size then Sum.inl idAcc'
    else formatScan alpha mask size rest idAcc'

/-- The outer `while (true)` batch loop of `format`: draw `step` bytes
(advancing the stream), scan them in reverse order, stop when the string
is complete.  `fuel` bounds the number of batches; `none` means the loop
is still running when the fuel runs out. -/
def formatLoop (s : ByteStream) (alpha : List Char) (mask size step : ℕ) :
    ℕ → ℕ → List Char → Option (List Char × ℕ)
  | 0, _, _ => none
  | fuel + 1, pos, idAcc =>
    match formatScan alpha mask size ((drawList s pos step).reverse) idAcc with
    | Sum.inl done => some (done, pos + step)
    | Sum.inr idAcc' => formatLoop s alpha mask size step fuel (pos + step) idAcc'

/-- `format(random, alphabet, size)` of `_format.ts`, with explicit
starting position and fuel. -/
def format (s : ByteStream) (alpha : List Char) (size pos fuel : ℕ) :
    Option (List Char × ℕ) :=
  formatLoop s alpha (formatMask alpha.length) size
    (formatStep (formatMask alpha.length) size alpha.length) fuel pos []

theorem formatScan_inl_spec (alpha : List Char) (mask size : ℕ) :
    ∀ (bytes : List ℕ) (idAcc out : List Char),
      (∀ c ∈ idAcc, c ∈ alpha) →
      formatScan alpha mask size bytes idAcc = Sum.inl out →
      out.length = size ∧ ∀ c ∈ out, c ∈ alpha := by
  intro bytes
  induction bytes with
  | nil => intro idAcc out _ h; simp [formatScan] at h
  | cons b rest ih =>
    intro idAcc out hmem h
    rw [formatScan] at h
    rcases hg : alpha.get? (b &&& mask) with _ | c <;> simp only [hg] at h
    · by_cases hlen : idAcc.length = size
      · rw [if_pos hlen] at h
        have hout := Sum.inl.inj h
        subst hout
        exact ⟨hlen, hmem⟩
      · rw [if_neg hlen] at h
        exact ih idAcc out hmem h
    · have hmem' : ∀ x ∈ idAcc ++ [c], x ∈ alpha := by
        intro x hx
        rcases List.mem_append.mp hx with hx | hx
        · exact hmem x hx
        · rw [List.mem_singleton.mp hx]
          exact List.get?_mem hg
      by_cases hlen : (idAcc ++ [c]).length = size
      · rw [if_pos hlen] at h
        have hout := Sum.inl.inj h
        subst hout
        exact ⟨hlen, hmem'⟩
      · rw [if_neg hlen] at h
        exact ih (idAcc ++ [c]) out hmem' h

theorem formatScan_inr_spec (alpha : List Char) (mask size : ℕ) :
    ∀ (bytes : List ℕ) (idAcc idAcc' : List Char),
      (∀ c ∈ idAcc, c ∈ alpha) →
      formatScan alpha mask size bytes idAcc = Sum.inr idAcc' →
      ∀ c ∈ idAcc', c ∈ alpha := by
  intro bytes
  induction bytes with
  | nil =>
    intro idAcc idAcc' hmem h
    rw [formatScan] at h
    cases h
    exact hmem
  | cons b rest ih =>
    intro idAcc idAcc' hmem h
    rw [formatScan] at h
    rcases hg : alpha.get? (b &&& mask) with _ | c <;> simp only [hg] at h
    · by_cases hlen : idAcc.length = size
      · rw [if_pos hlen] at h
        cases h
      · rw [if_neg hlen] at h
        exact ih idAcc idAcc' hmem h
    · have hmem' : ∀ x ∈ idAcc ++ [c], x ∈ alpha := by
        intro x hx
        rcases List.mem_append.mp hx with hx | hx
        · exact hmem x hx
        · rw [List.mem_singleton.mp hx]
          exact List.get?_mem hg
      by_cases hlen : (idAcc ++ [c]).length = size
      · rw [if_pos hlen] at h
        cases h
      · rw [if_neg hlen] at h
        exact ih (idAcc ++ [c]) idAcc' hmem' h

theorem formatLoop_some_spec (s : ByteStream) (alpha : List Char) (mask size step : ℕ) :
    ∀ (fuel pos : ℕ) (idAcc r : List Char) (pos' : ℕ),
      (∀ c ∈ idAcc, c ∈ alpha) →
      formatLoop s alpha mask size step fuel pos idAcc = some (r, pos') →
      r.length = size ∧ ∀ c ∈ r, c ∈ alpha := by
  intro fuel
  induction fuel with
  | zero => intro pos idAcc r pos' _ h; simp [formatLoop] at h
  | succ fuel ih =>
    intro pos idAcc r pos' hmem h
    rw [formatLoop] at h
    rcases hscan : formatScan alpha mask size ((drawList s pos step).reverse) idAcc with
      done | idAcc'
    · rw [hscan] at h
      simp only [Option.some.injEq, Prod.mk.injEq] at h
      rcases h with ⟨h1, _⟩
      subst h1
      exact formatScan_inl_spec alpha mask size _ idAcc done hmem hscan
    · rw [hscan] at h
      exact ih (pos + step) idAcc' r pos'
        (formatScan_inr_spec alpha mask size _ idAcc idAcc' hmem hscan) h

theorem format_some_spec (s : ByteStream) (alpha : List Char)
    (size pos fuel : ℕ) (r : List Char) (pos' : ℕ)
    (h : format s alpha size pos fuel = some (r, pos')) :
    r.length = size ∧ ∀ c ∈ r, c ∈ alpha := by
  rw [format] at h
  exact formatLoop_some_spec s alpha _ size _ fuel pos [] r pos' (by simp) h

/-! ## Claim C2 -/

/-- C2 (amended): `format` is partially correct: whenever it returns --
with any amount of fuel for its unbounded batch loop -- the result is a
string of length exactly `size` every character of which is a member of
the alphabet (a byte whose masked index falls outside the alphabet
contributes nothing, never a substitute character).  Termination is not
guaranteed: in particular for `size = 0` the function never returns. -/
theorem C2_amended_format_spec (s : ByteStream) (alpha : List Char)
    (size pos fuel : ℕ) (r : List Char) (pos' : ℕ)
    (h : format s alpha size pos fuel = some (r, pos')) :
    r.length = size ∧ ∀ c ∈ r, c ∈ alpha :=
  format_some_spec s alpha size pos fuel r pos' h

/-- Witness for C2 (amended): a run that does return: alphabet "ab",
`size = 1`, the cyclic source, position 0, one batch of fuel. -/
theorem C2_witness :
    format cycS ['a', 'b'] 1 0 1 = some (['a'], 1) ∧
    ((['a'] : List Char).length = 1 ∧
      ∀ c ∈ (['a'] : List Char), c ∈ (['a', 'b'] : List Char)) :=
  ⟨by decide, C2_amended_format_spec cycS ['a', 'b'] 1 0 1 ['a'] 1 (by decide)⟩

/-- `format` with `size = 0` computes a batch size of 0, so every batch is
empty, the length check after an append never fires, and the loop makes no
progress: it never returns, with any amount of fuel. -/
def FormatDiverges (s : ByteStream) (alpha : List Char) (size pos : ℕ) : Prop :=
  ∀ fuel, format s alpha size pos fuel = none

theorem formatStep_size_zero (mask len : ℕ) : formatStep mask 0 len = 0 := by
  rw [formatStep]
  rcases Nat.eq_zero_or_pos len with h | h
  · subst h; simp
  · rw [Nat.mul_zero]
    exact Nat.div_eq_of_lt (by omega)

theorem formatLoop_step_zero (s : ByteStream) (alpha : List Char) (mask size : ℕ) :
    ∀ fuel pos idAcc, formatLoop s alpha mask size 0 fuel pos idAcc = none := by
  intro fuel
  induction fuel with
  | zero => intro pos idAcc; rfl
  | succ fuel ih =>
    intro pos idAcc
    rw [formatLoop]
    show (match formatScan alpha mask size ((drawList s pos 0).reverse) idAcc with
      | Sum.inl done => some (done, pos + 0)
      | Sum.inr idAcc' => formatLoop s alpha mask size 0 fuel (pos + 0) idAcc') = none
    rw [show drawList s pos 0 = [] from rfl]
    rw [show ([] : List ℕ).reverse = [] from rfl, formatScan]
    exact ih (pos + 0) idAcc

theorem format_size_zero_diverges (s : ByteStream) (alpha : List Char) (pos : ℕ) :
    FormatDiverges s alpha 0 pos := by
  intro fuel
  rw [format, formatStep_size_zero]
  exact formatLoop_step_zero s alpha _ 0 fuel pos []

/-- Counterexample for C2 as stated: `format(source, "ab", 0)` never
returns (the claim demands it return the empty string). -/
theorem C2_counterexample : FormatDiverges cycS ['a', 'b'] 0 0 :=
  format_size_zero_diverges cycS _ 0

/-! ## The multi-alphabet pattern composer (`pattern` in `_generators.ts`) -/

/-- The `patterns` argument of `pattern`: either a single alphabet string
or a list of sub-alphabets. -/
inductive PatternSpec where
  | single : List Char → PatternSpec
  | multi : List (List Char) → PatternSpec

/-- Stable insertion of position `a` into a position list already sorted
ascending by `keys` (elements with equal keys keep the earlier-inserted
one first). -/
def sortInsert (keys : List ℕ) (a : ℕ) : List ℕ → List ℕ
  | [] => [a]
  | b :: l => if keys.getD b 0 ≤ keys.getD a 0 then b :: sortInsert keys a l
              else a :: b :: l

/-- `positions.sort((x, y) => randoms[x]! - randoms[y]!)`:
`Array.prototype.sort` with a comparator is a stable ascending sort,
modelled as stable insertion sort by key. -/
def sortPositions (keys : List ℕ) (l : List ℕ) : List ℕ :=
  l.foldl (fun acc i => sortInsert keys i acc) []

/-- `sortedPositions.map(i => chars[i]!)` after the key sort; positions
always lie within range, so the `getD` default is never read. -/
def shuffle (chars : List Char) (keys : List ℕ) : List Char :=
  (sortPositions keys (List.range chars.length)).map (fun i => chars.getD i 'a')

/-- The first loop of the multi-alphabet branch:
`for (const subpattern of patterns) buf += format(random, subpattern, 1)`. -/
def drawOnes (s : ByteStream) (fuel : ℕ) : List (List Char) → ℕ → Option (List Char × ℕ)
  | [], pos => some ([], pos)
  | a :: rest, pos =>
    match format s a 1 pos fuel with
    | none => none
    | some (c, pos') =>
      match drawOnes s fuel rest pos' with
      | none => none
      | some (cs, pos'') => some (c ++ cs, pos'')

/-- `positions.map(() => uint32(random))`: one fresh 32-bit draw per
position, in order. -/
def drawKeys (s : ByteStream) : ℕ → ℕ → List ℕ × ℕ
  | 0, pos => ([], pos)
  | m + 1, pos =>
    let v := (uint32 s pos).1
    let t := drawKeys s m ((uint32 s pos).2)
    (v :: t.1, t.2)

/-- `pattern(random, len, patterns)` of `_generators.ts`: a string spec
delegates to `format`; a list spec with `len < patterns.length` formats
against the flattened alphabet; otherwise one character per sub-alphabet
is drawn, the remaining `len - patterns.length` characters come from the
flattened alphabet, and the whole buffer is shuffled by sorting positions
on fresh 32-bit keys. -/
def patternFuel (s : ByteStream) (len : ℕ) (spec : PatternSpec) (pos fuel : ℕ) :
    Option (List Char × ℕ) :=
  match spec with
  | PatternSpec.single a => format s a len pos fuel
  | PatternSpec.multi ps =>
    if len < ps.length then format s ps.flatten len pos fuel
    else
      match drawOnes s fuel ps pos with
      | none => none
      | some (ones, pos₁) =>
        match format s ps.flatten (len - ps.length) pos₁ fuel with
        | none => none
        | some (rest, pos₂) =>
          let buf := ones ++ rest
          let t := drawKeys s buf.length pos₂
          some (shuffle buf t.1, t.2)

/-! ## Shuffle is a permutation -/

theorem sortInsert_perm (keys : List ℕ) (a : ℕ) :
    ∀ l, List.Perm (sortInsert keys a l) (a :: l) := by
  intro l
  induction l with
  | nil => rw [sortInsert]
  | cons b l ih =>
    rw [sortInsert]
    by_cases h : keys.getD b 0 ≤ keys.getD a 0
    · rw [if_pos h]
      exact (ih.cons b).trans (List.Perm.swap a b l)
    · rw [if_neg h]

theorem sortPositions_aux_perm (keys : List ℕ) :
    ∀ l acc, List.Perm (l.foldl (fun acc i => sortInsert keys i acc) acc) (l ++ acc) := by
  intro l
  induction l with
  | nil => intro acc; simp
  | cons x l ih =>
    intro acc
    have h1 : (x :: l).foldl (fun acc i => sortInsert keys i acc) acc
        = l.foldl (fun acc i => sortInsert keys i acc) (sortInsert keys x acc) := rfl
    rw [h1]
    refine ((ih (sortInsert keys x acc)).trans ?_)
    refine (List.Perm.append_left l (sortInsert_perm keys x acc)).trans ?_
    exact List.perm_middle

theorem sortPositions_perm (keys : List ℕ) (l : List ℕ) :
    List.Perm (sortPositions keys l) l := by
  have := sortPositions_aux_perm keys l []
  rw [List.append_nil] at this
  exact this

theorem map_getD_range {α : Type} :
    ∀ (l : List α) (d : α), (List.range l.length).map (fun i => l.getD i d) = l := by
  intro l
  induction l with
  | nil => intro d; rfl
  | cons a l ih =>
    intro d
    rw [List.length_cons, List.range_succ_eq_map, List.map_cons, List.map_map]
    show (a :: l).getD 0 d :: List.map ((fun i => (a :: l).getD i d) ∘ Nat.succ)
        (List.range l.length) = a :: l
    have hcomp : ((fun i => (a :: l).getD i d) ∘ Nat.succ) = fun i => l.getD i d := by
      funext i
      rfl
    rw [hcomp, ih d]
    rfl

theorem shuffle_perm (chars : List Char) (keys : List ℕ) :
    List.Perm (shuffle chars keys) chars := by
  rw [shuffle]
  have h1 : List.Perm ((sortPositions keys (List.range chars.length)).map
      (fun i => chars.getD i 'a'))
      ((List.range chars.length).map (fun i => chars.getD i 'a')) :=
    (sortPositions_perm keys (List.range chars.length)).map _
  rw [map_getD_range chars] at h1
  exact h1

/-! ## Claim C3 -/

theorem drawOnes_spec (s : ByteStream) (fuel : ℕ) :
    ∀ (ps : List (List Char)) (pos : ℕ) (ones : List Char) (pos₁ : ℕ),
      drawOnes s fuel ps pos = some (ones, pos₁) →
      ones.length = ps.length ∧ ∀ a ∈ ps, ∃ c ∈ ones, c ∈ a := by
  intro ps
  induction ps with
  | nil =>
    intro pos ones pos₁ h
    rw [drawOnes] at h
    simp only [Option.some.injEq, Prod.mk.injEq] at h
    rw [← h.1]
    exact ⟨rfl, by simp⟩
  | cons a rest ih =>
    intro pos ones pos₁ h
    rw [drawOnes] at h
    rcases hf : format s a 1 pos fuel with _ | ⟨c, posc⟩
    · simp only [hf] at h
      exact Option.noConfusion h
    · simp only [hf] at h
      rcases hd : drawOnes s fuel rest posc with _ | ⟨cs, poscs⟩
      · simp only [hd] at h
        exact Option.noConfusion h
      · simp only [hd] at h
        simp only [Option.some.injEq, Prod.mk.injEq] at h
        have hfs := format_some_spec s a 1 pos fuel c posc hf
        have hds := ih posc cs poscs hd
        rw [← h.1]
        constructor
        · rw [List.length_append, List.length_cons, hfs.1, hds.1]
          omega
        · intro b hb
          rcases List.mem_cons.mp hb with hb | hb
          · subst hb
            obtain ⟨x, hx⟩ : ∃ x, c = [x] := by
              rcases c with _ | ⟨x, ⟨⟩ | _⟩
              · simp at hfs
              · exact ⟨x, rfl⟩
              · simp at hfs
            refine ⟨x, by simp [hx], ?_⟩
            have := hfs.2 x (by simp [hx])
            exact this
          · obtain ⟨y, hy1, hy2⟩ := hds.2 b hb
            exact ⟨y, by simp [hy1], hy2⟩

/-- C3 (amended): with a list spec of `n ≥ 1` sub-alphabets and
`size ≥ n`, whenever `pattern` returns -- with any fuel for the
underlying format loops -- the result has length exactly `size` and
contains at least one character from each sub-alphabet.  Termination is
not guaranteed; in the boundary case `size = n` the final flat
`format(..., 0)` never returns, so `pattern` never returns. -/
theorem C3_amended_pattern (s : ByteStream) (ps : List (List Char))
    (size pos fuel : ℕ) (_h1 : 1 ≤ ps.length) (h2 : ps.length ≤ size)
    (r : List Char) (pos' : ℕ)
    (h : patternFuel s size (PatternSpec.multi ps) pos fuel = some (r, pos')) :
    r.length = size ∧ ∀ a ∈ ps, ∃ c ∈ r, c ∈ a := by
  rw [patternFuel, if_neg (by omega)] at h
  rcases hd : drawOnes s fuel ps pos with _ | ⟨ones, pos₁⟩
  · simp only [hd] at h
    exact Option.noConfusion h
  · simp only [hd] at h
    rcases hf : format s ps.flatten (size - ps.length) pos₁ fuel with _ | ⟨rest, pos₂⟩
    · simp only [hf] at h
      exact Option.noConfusion h
    · simp only [hf] at h
      simp only [Option.some.injEq, Prod.mk.injEq] at h
      have hds := drawOnes_spec s fuel ps pos ones pos₁ hd
      have hfs := format_some_spec s ps.flatten (size - ps.length) pos₁ fuel rest pos₂ hf
      have hperm := shuffle_perm (ones ++ rest)
        ((drawKeys s (ones ++ rest).length pos₂).1)
      rw [← h.1]
      constructor
      · rw [hperm.length_eq, List.length_append, hds.1, hfs.1]
        omega
      · intro a ha
        obtain ⟨c, hc1, hc2⟩ := hds.2 a ha
        refine ⟨c, ?_, hc2⟩
        exact (hperm.mem_iff).mpr (List.mem_append.mpr (Or.inl hc1))

/-- `pattern` never returns: with any amount of fuel it is still
running. -/
def PatternDiverges (s : ByteStream) (len : ℕ) (spec : PatternSpec) (pos : ℕ) : Prop :=
  ∀ fuel, patternFuel s len spec pos fuel = none

/-- At the boundary `size = n` the multi-alphabet branch always ends in
`format(random, flat, 0)`, which never returns. -/
theorem pattern_boundary_diverges (s : ByteStream) (ps : List (List Char)) (pos : ℕ) :
    PatternDiverges s ps.length (PatternSpec.multi ps) pos := by
  intro fuel
  rw [patternFuel, if_neg (lt_irrefl ps.length)]
  rcases hd : drawOnes s fuel ps pos with _ | ⟨ones, pos₁⟩
  · simp only [hd]
  · simp only [hd, Nat.sub_self, format_size_zero_diverges s ps.flatten pos₁ fuel]

/-- Counterexample for C3 as stated: with two sub-alphabets "ab", "cd"
and `size = n = 2`, `pattern` never returns (the claim demands one
character per sub-alphabet, permuted). -/
theorem C3_counterexample :
    PatternDiverges cycS 2 (PatternSpec.multi [['a', 'b'], ['c', 'd']]) 0 :=
  pattern_boundary_diverges cycS [['a', 'b'], ['c', 'd']] 0

/-- Witness for C3 (amended): spec ["ab","cd"], `size = 3`, the cyclic
source: the run returns "add" (one char from each sub-alphabet plus one
flat char, shuffled by ascending keys). -/
theorem C3_witness :
    (1 ≤ ([['a', 'b'], ['c', 'd']] : List (List Char)).length ∧
      ([['a', 'b'], ['c', 'd']] : List (List Char)).length ≤ 3) ∧
    patternFuel cycS 3 (PatternSpec.multi [['a', 'b'], ['c', 'd']]) 0 1 =
      some (['a', 'd', 'd'], 16) ∧
    ((['a', 'd', 'd'] : List Char).length = 3 ∧
      ∀ a ∈ ([['a', 'b'], ['c', 'd']] : List (List Char)),
        ∃ c ∈ (['a', 'd', 'd'] : List Char), c ∈ a) :=
  ⟨⟨by decide, by decide⟩, by decide,
    C3_amended_pattern cycS [['a', 'b'], ['c', 'd']] 3 0 1 (by decide) (by decide)
      ['a', 'd', 'd'] 16 (by decide)⟩

/-! ## The unique pattern generator (`uniquePatterns` in `_generators.ts`) -/

/-- `Set.add`: insert at the back unless already present (a JS `Set`
keeps insertion order and ignores duplicate adds). -/
def setAdd (l : List (List Char)) (x : List Char) : List (List Char) :=
  if x ∈ l then l else l ++ [x]

/-- The `while (map.size < count)` loop of the branch WITH an exclusion
set.  Note the slip faithfully preserved from the source: the generated
pattern `p` is only used for the exclusion test; the value actually
inserted comes from a second, unchecked `pattern(...)` call. -/
def upLoopEx (s : ByteStream) (len : ℕ) (spec : PatternSpec) (pfuel count : ℕ)
    (excl : List (List Char)) :
    ℕ → ℕ → List (List Char) → Option (List (List Char) × ℕ)
  | 0, _, _ => none
  | fuel + 1, pos, acc =>
    if count ≤ acc.length then some (acc, pos)
    else
      match patternFuel s len spec pos pfuel with
      | none => none
      | some (p, pos₁) =>
        if p ∈ excl then upLoopEx s len spec pfuel count excl fuel pos₁ acc
        else
          match patternFuel s len spec pos₁ pfuel with
          | none => none
          | some (q, pos₂) => upLoopEx s len spec pfuel count excl fuel pos₂ (setAdd acc q)

/-- The `while (map.size < count)` loop of the branch WITHOUT an
exclusion set: each iteration adds one freshly generated pattern. -/
def upLoopNoEx (s : ByteStream) (len : ℕ) (spec : PatternSpec) (pfuel count : ℕ) :
    ℕ → ℕ → List (List Char) → Option (List (List Char) × ℕ)
  | 0, _, _ => none
  | fuel + 1, pos, acc =>
    if count ≤ acc.length then some (acc, pos)
    else
      match patternFuel s len spec pos pfuel with
      | none => none
      | some (p, pos₁) => upLoopNoEx s len spec pfuel count fuel pos₁ (setAdd acc p)

/-- `uniquePatterns(random, count, len, patterns, existingPatterns?)`:
accumulate a set of patterns until it holds `count` members and return
its keys in insertion order.  `existing = none` models the absent
optional argument.  `fuel` bounds the loop iterations and `pfuel` the
inner format loops. -/
def uniquePatterns (s : ByteStream) (count len : ℕ) (spec : PatternSpec)
    (existing : Option (List (List Char))) (pos fuel pfuel : ℕ) :
    Option (List (List Char) × ℕ) :=
  match existing with
  | some excl => upLoopEx s len spec pfuel count excl fuel pos []
  | none => upLoopNoEx s len spec pfuel count fuel pos []

/-! ## Claim C1 -/

/-- C1 (code bug): the source checks the exclusion set against one
generated pattern but inserts a different, unchecked one.  Concretely,
with the source delivering bytes 0,1,2,..., alphabet "ab", `len = 1`,
`count = 1` and `exclude = ["b"]`: the first generated pattern is "a"
(not excluded), whereupon the loop inserts the SECOND generated pattern
"b" -- which is exactly the excluded string -- and returns ["b"]. -/
theorem C1_code_eval :
    uniquePatterns cycS 1 1 (PatternSpec.single ['a', 'b'])
        (some [['b']]) 0 5 5 = some ([['b']], 2) ∧
    (['b'] : List Char) ∈ ([[Char.ofNat 98]] : List (List Char)) := by
  constructor <;> decide

/-! ## The batching adapter (`batchedRandomSource` in `_source.ts`) -/

/-- The adapter closure's captured state: the current buffer (absent
until first use), the read offset inside it, and -- for bookkeeping in
the model -- how many bytes have been drawn from the base source. -/
structure BState where
  buffer : Option (List ℕ)
  offset : ℕ
  basePos : ℕ

/-- The `while (pos < len)` copy loop of the adapter.  Arguments: fuel,
bytes still needed, current buffer, offset, base position, accumulated
output.  Each round copies `size = min(len - pos, batchSize - offset)`
bytes out of the buffer and refills the buffer (`source(batchSize)`)
exactly when the offset reaches `batchSize`.  `none` when the fuel runs
out (with `batchSize = 0` the JS loop spins forever). -/
def batchLoop (base : ByteStream) (B : ℕ) :
    ℕ → ℕ → List ℕ → ℕ → ℕ → List ℕ → Option (List ℕ × List ℕ × ℕ × ℕ)
  | _, 0, buf, off, bp, acc => some (acc, buf, off, bp)
  | 0, _ + 1, _, _, _, _ => none
  | fuel + 1, need + 1, buf, off, bp, acc =>
    let size := min (need + 1) (B - off)
    let acc' := acc ++ ((buf.drop off).take size)
    let off' := off + size
    if off' = B then
      batchLoop base B fuel (need + 1 - size) (drawList base bp B) 0 (bp + B) acc'
    else
      batchLoop base B fuel (need + 1 - size) buf off' bp acc'

/-- One call `source(len)` of the adapter: `if (!buffer) buffer =
source(batchSize)`, then the copy loop. -/
def batchedCall (base : ByteStream) (B : ℕ) (st : BState) (len : ℕ) :
    Option (List ℕ × BState) :=
  let filled : List ℕ × ℕ :=
    match st.buffer with
    | none => (drawList base st.basePos B, st.basePos + B)
    | some b => (b, st.basePos)
  match batchLoop base B len len filled.1 st.offset filled.2 [] with
  | none => none
  | some (res, buf', off', bp') => some (res, ⟨some buf', off', bp'⟩)

/-- Run the adapter over a whole list of requested lengths. -/
def batchedRun (base : ByteStream) (B : ℕ) :
    BState → List ℕ → Option (List (List ℕ) × BState)
  | st, [] => some ([], st)
  | st, len :: rest =>
    match batchedCall base B st len with
    | none => none
    | some (res, st') =>
      match batchedRun base B st' rest with
      | none => none
      | some (os, st'') => some (res :: os, st'')

/-- A freshly created adapter: no buffer yet, offset 0. -/
def batchedInit : BState := ⟨none, 0, 0⟩

theorem drawList_drop (s : ByteStream) :
    ∀ n pos k, (drawList s pos n).drop k = drawList s (pos + k) (n - k) := by
  intro n
  induction n with
  | zero =>
    intro pos k
    rw [Nat.zero_sub]
    cases k <;> rfl
  | succ n ih =>
    intro pos k
    cases k with
    | zero => rfl
    | succ k =>
      show (drawList s (pos + 1) n).drop k = _
      have ha : pos + 1 + k = pos + (k + 1) := by omega
      have hb : n - k = n + 1 - (k + 1) := by omega
      rw [ih (pos + 1) k, ha, hb]

theorem drawList_take (s : ByteStream) :
    ∀ n pos k, (drawList s pos n).take k = drawList s pos (min k n) := by
  intro n
  induction n with
  | zero => intro pos k; cases k <;> rfl
  | succ n ih =>
    intro pos k
    cases k with
    | zero => rfl
    | succ k =>
      show byteAt s pos :: (drawList s (pos + 1) n).take k = _
      rw [ih (pos + 1) k]
      have hmin : min (k + 1) (n + 1) = min k n + 1 := by omega
      rw [hmin]
      rfl

theorem drawList_drop_take (s : ByteStream) (pos n off size : ℕ) (h : off + size ≤ n) :
    ((drawList s pos n).drop off).take size = drawList s (pos + off) size := by
  rw [drawList_drop, drawList_take]
  congr 1
  omega

theorem batchLoop_need_zero (base : ByteStream) (B fuel : ℕ) (buf : List ℕ)
    (off bp : ℕ) (acc : List ℕ) :
    batchLoop base B fuel 0 buf off bp acc = some (acc, buf, off, bp) := by
  cases fuel <;> rfl

theorem batchLoop_succ (base : ByteStream) (B fuel need : ℕ) (buf : List ℕ)
    (off bp : ℕ) (acc : List ℕ) :
    batchLoop base B (fuel + 1) (need + 1) buf off bp acc =
      (if off + min (need + 1) (B - off) = B then
        batchLoop base B fuel (need + 1 - min (need + 1) (B - off))
          (drawList base bp B) 0 (bp + B)
          (acc ++ ((buf.drop off).take (min (need + 1) (B - off))))
      else
        batchLoop base B fuel (need + 1 - min (need + 1) (B - off)) buf
          (off + min (need + 1) (B - off)) bp
          (acc ++ ((buf.drop off).take (min (need + 1) (B - off))))) := rfl

theorem drawList_split_at (s : ByteStream) (start n k : ℕ) (h : k ≤ n) :
    drawList s start n = drawList s start k ++ drawList s (start + k) (n - k) := by
  have hk := drawList_append s k start (n - k)
  rw [show k + (n - k) = n from by omega] at hk
  exact hk

theorem batchLoop_spec (base : ByteStream) (B : ℕ) (hB : 1 ≤ B) :
    ∀ fuel need off bp acc, need ≤ fuel → off < B → B ≤ bp →
      ∃ off' bp',
        batchLoop base B fuel need (drawList base (bp - B) B) off bp acc =
          some (acc ++ drawList base (bp - B + off) need,
                drawList base (bp' - B) B, off', bp') ∧
        off' < B ∧ B ≤ bp' ∧ bp' - B + off' = bp - B + off + need := by
  intro fuel
  induction fuel with
  | zero =>
    intro need off bp acc h1 h2 h3
    have h0 : need = 0 := by omega
    subst h0
    refine ⟨off, bp, ?_, h2, h3, by omega⟩
    rw [batchLoop_need_zero]
    simp [drawList]
  | succ fuel ih =>
    intro need off bp acc h1 h2 h3
    cases need with
    | zero =>
      refine ⟨off, bp, ?_, h2, h3, by omega⟩
      rw [batchLoop_need_zero]
      simp [drawList]
    | succ need =>
      rw [batchLoop_succ]
      set sz := min (need + 1) (B - off) with hszdef
      have hszle : sz ≤ B - off := Nat.min_le_right _ _
      have hszle2 : sz ≤ need + 1 := Nat.min_le_left _ _
      have hsz1 : 1 ≤ sz := by
        rw [hszdef]
        omega
      have hserve : ((drawList base (bp - B) B).drop off).take sz =
          drawList base (bp - B + off) sz :=
        drawList_drop_take base (bp - B) B off _ (by omega)
      by_cases hoff : off + sz = B
      · rw [if_pos hoff]
        have hbufn : drawList base bp B = drawList base ((bp + B) - B) B := by
          congr 1
          omega
        rw [hbufn]
        obtain ⟨off', bp', hrec, h4, h5, h6⟩ :=
          ih (need + 1 - sz) 0 (bp + B)
            (acc ++ ((drawList base (bp - B) B).drop off).take sz)
            (by omega) (by omega) (by omega)
        refine ⟨off', bp', ?_, h4, h5, by omega⟩
        rw [hrec, hserve]
        have hsplit := drawList_split_at base (bp - B + off) (need + 1) sz (by omega)
        rw [hsplit]
        have hstart : bp - B + off + sz = (bp + B) - B + 0 := by omega
        rw [hstart, List.append_assoc]
      · rw [if_neg hoff]
        obtain ⟨off', bp', hrec, h4, h5, h6⟩ :=
          ih (need + 1 - sz) (off + sz) bp
            (acc ++ ((drawList base (bp - B) B).drop off).take sz)
            (by omega) (by omega) h3
        refine ⟨off', bp', ?_, h4, h5, by omega⟩
        rw [hrec, hserve]
        have hsplit := drawList_split_at base (bp - B + off) (need + 1) sz (by omega)
        rw [hsplit]
        have hstart : bp - B + off + sz = bp - B + (off + sz) := by omega
        rw [hstart, List.append_assoc]

/-- The adapter-state invariant after `served` bytes have been handed
out: the buffer (once present) is the most recent window of base bytes,
the offset stays strictly inside it, and every byte served so far came
from positions `0, ..., served - 1` of the base source in order. -/
def BInv (base : ByteStream) (B : ℕ) (st : BState) (served : ℕ) : Prop :=
  match st.buffer with
  | none => st.offset = 0 ∧ st.basePos = 0 ∧ served = 0
  | some buf => buf = drawList base (st.basePos - B) B ∧ st.offset < B ∧
      B ≤ st.basePos ∧ served = st.basePos - B + st.offset

theorem batchedCall_spec (base : ByteStream) (B : ℕ) (hB : 1 ≤ B)
    (st : BState) (served len : ℕ) (hInv : BInv base B st served) :
    ∃ st', batchedCall base B st len = some (drawList base served len, st') ∧
      BInv base B st' (served + len) := by
  rcases st with ⟨buffer, off, bp⟩
  cases buffer with
  | none =>
    simp only [BInv] at hInv
    obtain ⟨ho, hb, hs⟩ := hInv
    subst ho
    subst hb
    subst hs
    obtain ⟨off', bp', hrec, h4, h5, h6⟩ :=
      batchLoop_spec base B hB len len 0 (0 + B) [] le_rfl (by omega) (by omega)
    rw [show (0 : ℕ) + B - B = 0 by omega] at hrec
    refine ⟨⟨some (drawList base (bp' - B) B), off', bp'⟩, ?_, ?_⟩
    · show (match batchLoop base B len len (drawList base 0 B) 0 (0 + B) [] with
        | none => none
        | some (res, buf', o, b) =>
            some (res, BState.mk (some buf') o b)) = _
      rw [hrec]
      rw [show (0 : ℕ) + 0 = 0 by omega]
      rfl
    · simp only [BInv]
      exact ⟨trivial, h4, h5, by omega⟩
  | some buf =>
    simp only [BInv] at hInv
    obtain ⟨hbuf, ho, hbp, hs⟩ := hInv
    subst hbuf
    subst hs
    obtain ⟨off', bp', hrec, h4, h5, h6⟩ :=
      batchLoop_spec base B hB len len off bp [] le_rfl ho hbp
    refine ⟨⟨some (drawList base (bp' - B) B), off', bp'⟩, ?_, ?_⟩
    · show (match batchLoop base B len len (drawList base (bp - B) B) off bp [] with
        | none => none
        | some (res, buf', o, b) =>
            some (res, BState.mk (some buf') o b)) = _
      rw [hrec]
      rfl
    · simp only [BInv]
      exact ⟨trivial, h4, h5, by omega⟩

theorem batchedRun_spec (base : ByteStream) (B : ℕ) (hB : 1 ≤ B) :
    ∀ (lens : List ℕ) (st : BState) (served : ℕ), BInv base B st served →
      ∃ outs st', batchedRun base B st lens = some (outs, st') ∧
        outs.map List.length = lens ∧
        outs.flatten = drawList base served lens.sum := by
  intro lens
  induction lens with
  | nil =>
    intro st served hInv
    exact ⟨[], st, rfl, rfl, rfl⟩
  | cons len rest ih =>
    intro st served hInv
    obtain ⟨st', hcall, hInv'⟩ := batchedCall_spec base B hB st served len hInv
    obtain ⟨os, st'', hrun, hlen, hcat⟩ := ih st' (served + len) hInv'
    refine ⟨drawList base served len :: os, st'', ?_, ?_, ?_⟩
    · rw [batchedRun]
      simp only [hcall, hrun]
    · simp only [List.map_cons, hlen, drawList_length, List.cons.injEq]
    · rw [List.flatten_cons, hcat, List.sum_cons, drawList_append]

/-! ## Claim C8 -/

/-- C8 (confirmed): for every base byte source, batch size `≥ 1` and
sequence of requested lengths, the adapter returns exactly the requested
number of bytes on each call, and the concatenation of everything it
returns is, in order, the prefix of the base source's byte stream (the
first byte requested is the first byte ever drawn from the base source),
including when one request spans several refills. -/
theorem C8_batched_source (base : ByteStream) (B : ℕ) (hB : 1 ≤ B)
    (lens : List ℕ) :
    ∃ outs st', batchedRun base B batchedInit lens = some (outs, st') ∧
      outs.map List.length = lens ∧
      outs.flatten = drawList base 0 lens.sum :=
  batchedRun_spec base B hB lens batchedInit 0 ⟨rfl, rfl, rfl⟩

/-- Witness for C8: batch size 2 and requests [5, 3] on the cyclic
source (the first request spans three buffer refills). -/
theorem C8_witness :
    1 ≤ 2 ∧
    (∃ outs st', batchedRun cycS 2 batchedInit [5, 3] = some (outs, st') ∧
      outs.map List.length = [5, 3] ∧
      outs.flatten = drawList cycS 0 ([5, 3] : List ℕ).sum) :=
  ⟨by decide, C8_batched_source cycS 2 (by decide) [5, 3]⟩

/-! ## Claim C9: the core is a pure function of its byte stream -/

/-- Two deterministic sources that deliver identical bytes at every
position (their raw values may differ; a `Uint8Array` keeps values mod
256). -/
def SameBytes (s1 s2 : ByteStream) : Prop := ∀ i, byteAt s1 i = byteAt s2 i

theorem drawList_congr (s1 s2 : ByteStream) (h : SameBytes s1 s2) :
    ∀ n pos, drawList s1 pos n = drawList s2 pos n := by
  intro n
  induction n with
  | zero => intro pos; rfl
  | succ n ih =>
    intro pos
    rw [drawList, drawList, h pos, ih (pos + 1)]

theorem uint8_congr (s1 s2 : ByteStream) (h : SameBytes s1 s2) (pos : ℕ) :
    uint8 s1 pos = uint8 s2 pos := by
  rw [uint8, uint8, drawList_congr s1 s2 h]

theorem uint16_congr (s1 s2 : ByteStream) (h : SameBytes s1 s2) (pos : ℕ) :
    uint16 s1 pos = uint16 s2 pos := by
  rw [uint16, uint16, drawList_congr s1 s2 h]

theorem uint32_congr (s1 s2 : ByteStream) (h : SameBytes s1 s2) (pos : ℕ) :
    uint32 s1 pos = uint32 s2 pos := by
  rw [uint32, uint32, drawList_congr s1 s2 h]

theorem uint64_congr (s1 s2 : ByteStream) (h : SameBytes s1 s2) (pos : ℕ) :
    uint64 s1 pos = uint64 s2 pos := by
  rw [uint64, uint64, drawList_congr s1 s2 h]

theorem rsAux_congr (s1 s2 : ByteStream) (h : SameBytes s1 s2) (range : ℤ) :
    ∀ r pos, rsAux s1 range pos r = rsAux s2 range pos r := by
  intro r
  induction r with
  | zero =>
    intro pos
    rw [rsAux_zero, rsAux_zero, uint32_congr s1 s2 h pos]
  | succ r ih =>
    intro pos
    rw [rsAux_succ, rsAux_succ, uint32_congr s1 s2 h pos, ih ((uint32 s2 pos).2)]

theorem rejectionSampling_congr (s1 s2 : ByteStream) (h : SameBytes s1 s2)
    (range : ℤ) (pos : ℕ) :
    rejectionSampling s1 range pos = rejectionSampling s2 range pos := by
  rw [rejectionSampling, rejectionSampling,
    rsAux_congr s1 s2 h range maxIntegerIter pos]

theorem integerLessThan_congr (s1 s2 : ByteStream) (h : SameBytes s1 s2)
    (range : ℚ) (pos : ℕ) :
    integerLessThan s1 range pos = integerLessThan s2 range pos := by
  rw [integerLessThan, integerLessThan, rejectionSampling_congr s1 s2 h]

theorem integer_congr (s1 s2 : ByteStream) (h : SameBytes s1 s2)
    (mn mx : ℚ) (pos : ℕ) :
    integer s1 mn mx pos = integer s2 mn mx pos := by
  rw [integer, integer]
  by_cases hc : mn ≤ mx
  · rw [if_pos hc, if_pos hc]
    show (let t := integerLessThan s1 ((⌊mx⌋ : ℚ) - (⌈mn⌉ : ℚ) + 1) pos
      (t.1.map (fun v => ⌈mn⌉ + v), t.2)) = _
    rw [integerLessThan_congr s1 s2 h]
  · rw [if_neg hc, if_neg hc]

theorem formatLoop_congr (s1 s2 : ByteStream) (h : SameBytes s1 s2)
    (alpha : List Char) (mask size step : ℕ) :
    ∀ fuel pos idAcc, formatLoop s1 alpha mask size step fuel pos idAcc =
      formatLoop s2 alpha mask size step fuel pos idAcc := by
  intro fuel
  induction fuel with
  | zero => intro pos idAcc; rfl
  | succ fuel ih =>
    intro pos idAcc
    rw [formatLoop, formatLoop, drawList_congr s1 s2 h step pos]
    cases hscan : formatScan alpha mask size ((drawList s2 pos step).reverse) idAcc with
    | inl done => simp only [hscan]
    | inr idAcc' =>
      simp only [hscan]
      exact ih (pos + step) idAcc'

theorem format_congr (s1 s2 : ByteStream) (h : SameBytes s1 s2)
    (alpha : List Char) (size pos fuel : ℕ) :
    format s1 alpha size pos fuel = format s2 alpha size pos fuel := by
  rw [format, format, formatLoop_congr s1 s2 h]

theorem drawOnes_congr (s1 s2 : ByteStream) (h : SameBytes s1 s2) (fuel : ℕ) :
    ∀ ps pos, drawOnes s1 fuel ps pos = drawOnes s2 fuel ps pos := by
  intro ps
  induction ps with
  | nil => intro pos; rfl
  | cons a rest ih =>
    intro pos
    rw [drawOnes, drawOnes, format_congr s1 s2 h a 1 pos fuel]
    cases hf : format s2 a 1 pos fuel with
    | none => simp only [hf]
    | some t =>
      simp only [hf]
      rw [ih t.2]

theorem drawKeys_congr (s1 s2 : ByteStream) (h : SameBytes s1 s2) :
    ∀ m pos, drawKeys s1 m pos = drawKeys s2 m pos := by
  intro m
  induction m with
  | zero => intro pos; rfl
  | succ m ih =>
    intro pos
    rw [drawKeys, drawKeys, uint32_congr s1 s2 h pos, ih ((uint32 s2 pos).2)]

theorem patternFuel_congr (s1 s2 : ByteStream) (h : SameBytes s1 s2)
    (len : ℕ) (spec : PatternSpec) (pos fuel : ℕ) :
    patternFuel s1 len spec pos fuel = patternFuel s2 len spec pos fuel := by
  cases spec with
  | single a => exact format_congr s1 s2 h a len pos fuel
  | multi ps =>
    rw [patternFuel, patternFuel]
    by_cases hlt : len < ps.length
    · rw [if_pos hlt, if_pos hlt]
      exact format_congr s1 s2 h ps.flatten len pos fuel
    · rw [if_neg hlt, if_neg hlt, drawOnes_congr s1 s2 h fuel ps pos]
      cases hd : drawOnes s2 fuel ps pos with
      | none => simp only [hd]
      | some t =>
        simp only [hd]
        rw [format_congr s1 s2 h ps.flatten (len - ps.length) t.2 fuel]
        cases hf : format s2 ps.flatten (len - ps.length) t.2 fuel with
        | none => simp only [hf]
        | some u =>
          simp only [hf]
          rw [drawKeys_congr s1 s2 h (t.1 ++ u.1).length u.2]

theorem upLoopEx_congr (s1 s2 : ByteStream) (h : SameBytes s1 s2)
    (len : ℕ) (spec : PatternSpec) (pfuel count : ℕ) (excl : List (List Char)) :
    ∀ fuel pos acc, upLoopEx s1 len spec pfuel count excl fuel pos acc =
      upLoopEx s2 len spec pfuel count excl fuel pos acc := by
  intro fuel
  induction fuel with
  | zero => intro pos acc; rfl
  | succ fuel ih =>
    intro pos acc
    rw [upLoopEx, upLoopEx]
    by_cases hc : count ≤ acc.length
    · rw [if_pos hc, if_pos hc]
    · rw [if_neg hc, if_neg hc, patternFuel_congr s1 s2 h len spec pos pfuel]
      cases hp : patternFuel s2 len spec pos pfuel with
      | none => simp only [hp]
      | some t =>
        simp only [hp]
        by_cases hex : t.1 ∈ excl
        · rw [if_pos hex, if_pos hex]
          exact ih t.2 acc
        · rw [if_neg hex, if_neg hex, patternFuel_congr s1 s2 h len spec t.2 pfuel]
          cases hq : patternFuel s2 len spec t.2 pfuel with
          | none => simp only [hq]
          | some u =>
            simp only [hq]
            exact ih u.2 (setAdd acc u.1)

theorem upLoopNoEx_congr (s1 s2 : ByteStream) (h : SameBytes s1 s2)
    (len : ℕ) (spec : PatternSpec) (pfuel count : ℕ) :
    ∀ fuel pos acc, upLoopNoEx s1 len spec pfuel count fuel pos acc =
      upLoopNoEx s2 len spec pfuel count fuel pos acc := by
  intro fuel
  induction fuel with
  | zero => intro pos acc; rfl
  | succ fuel ih =>
    intro pos acc
    rw [upLoopNoEx, upLoopNoEx]
    by_cases hc : count ≤ acc.length
    · rw [if_pos hc, if_pos hc]
    · rw [if_neg hc, if_neg hc, patternFuel_congr s1 s2 h len spec pos pfuel]
      cases hp : patternFuel s2 len spec pos pfuel with
      | none => simp only [hp]
      | some t =>
        simp only [hp]
        exact ih t.2 (setAdd acc t.1)

theorem uniquePatterns_congr (s1 s2 : ByteStream) (h : SameBytes s1 s2)
    (count len : ℕ) (spec : PatternSpec) (existing : Option (List (List Char)))
    (pos fuel pfuel : ℕ) :
    uniquePatterns s1 count len spec existing pos fuel pfuel =
      uniquePatterns s2 count len spec existing pos fuel pfuel := by
  cases existing with
  | none => exact upLoopNoEx_congr s1 s2 h len spec pfuel count fuel pos []
  | some excl => exact upLoopEx_congr s1 s2 h len spec pfuel count excl fuel pos []

/-- C9 (confirmed): every core function is a deterministic pure function
of its parameters and the byte stream: two sources that deliver the same
bytes at every position yield bit-identical results for byte/integer
extraction, `integerLessThan`, `integer`, `format`, `pattern` and
`uniquePatterns`, at all positions, arguments and fuels. -/
theorem C9_deterministic (s1 s2 : ByteStream) (h : SameBytes s1 s2) :
    (∀ pos, uint8 s1 pos = uint8 s2 pos) ∧
    (∀ pos, uint16 s1 pos = uint16 s2 pos) ∧
    (∀ pos, uint32 s1 pos = uint32 s2 pos) ∧
    (∀ pos, uint64 s1 pos = uint64 s2 pos) ∧
    (∀ range pos, integerLessThan s1 range pos = integerLessThan s2 range pos) ∧
    (∀ mn mx pos, integer s1 mn mx pos = integer s2 mn mx pos) ∧
    (∀ alpha size pos fuel, format s1 alpha size pos fuel =
      format s2 alpha size pos fuel) ∧
    (∀ len spec pos fuel, patternFuel s1 len spec pos fuel =
      patternFuel s2 len spec pos fuel) ∧
    (∀ count len spec existing pos fuel pfuel,
      uniquePatterns s1 count len spec existing pos fuel pfuel =
        uniquePatterns s2 count len spec existing pos fuel pfuel) :=
  ⟨uint8_congr s1 s2 h, uint16_congr s1 s2 h, uint32_congr s1 s2 h,
    uint64_congr s1 s2 h,
    fun range pos => integerLessThan_congr s1 s2 h range pos,
    fun mn mx pos => integer_congr s1 s2 h mn mx pos,
    fun alpha size pos fuel => format_congr s1 s2 h alpha size pos fuel,
    fun len spec pos fuel => patternFuel_congr s1 s2 h len spec pos fuel,
    fun count len spec existing pos fuel pfuel =>
      uniquePatterns_congr s1 s2 h count len spec existing pos fuel pfuel⟩

/-- Witness for C9: `idS` and `cycS` are different raw streams that agree
byte-for-byte; the theorem applies and, e.g., their first `uint8` draws
agree. -/
theorem C9_witness :
    SameBytes idS cycS ∧ uint8 idS 0 = uint8 cycS 0 :=
  have hsb : SameBytes idS cycS := fun i => by
    show i % 256 = i % 256 % 256
    omega
  ⟨hsb, (C9_deterministic idS cycS hsb).1 0⟩

end Quokka
